import Mathlib

/-!
Shallow embedding of `src/scg_optimal_method.c` (SCGlib optimal partition,
algorithm 5.8): `igraph_i_optimal_partition` and `igraph_i_cost_matrix`.

The C type `REAL` (double) is modelled as `ℚ` (exact arithmetic), `UINT`
as `ℕ`.  Arrays are modelled as total functions; matrices allocated with
`CALLOC` (and the helpers `igraph_i_real_matrix`, `igraph_i_uint_matrix`,
`igraph_i_real_sym_matrix`, `igraph_i_real_vector` from `scg_headers.h`,
which zero their storage) start as the constant-zero function, and cells
the C code never writes keep the value 0.
-/

/-- Model of the C struct `INDVAL`: a value paired with its original index. -/
structure IndVal where
  val : ℚ
  ind : ℕ
deriving DecidableEq

/-- Insertion of an element into a value-sorted list, keeping earlier
elements first on ties.  Models the ordering produced by `qsort` with
`igraph_i_compare_ind_val` (comparison by `.val`; tie order is
unspecified in C, the model fixes the stable order). -/
def insertIV (a : IndVal) : List IndVal → List IndVal
  | [] => [a]
  | b :: t => if a.val ≤ b.val then a :: b :: t else b :: insertIV a t

/-- Sorting of the index-value pairs by value: models the `qsort` call. -/
def sortIV : List IndVal → List IndVal
  | [] => []
  | x :: t => insertIV x (sortIV t)

/-- Pairing each entry of the input vector `v` with its index, starting
at `i`: models the loop `vs[i].val = v[i]; vs[i].ind = i`. -/
def withIdx : List ℚ → ℕ → List IndVal
  | [], _ => []
  | x :: t, i => ⟨x, i⟩ :: withIdx t (i + 1)

/-- The sorted sequence `vs` built by `igraph_i_optimal_partition` from
the input vector `v`. -/
def vsList (v : List ℚ) : List IndVal :=
  sortIV (withIdx v 0)

/-- Value at sorted position `i` (`vs[i].val`). -/
def sval (v : List ℚ) (i : ℕ) : ℚ :=
  (List.getD (vsList v) i ⟨0, 0⟩).val

/-- Original index at sorted position `i` (`vs[i].ind`). -/
def sind (v : List ℚ) (i : ℕ) : ℕ :=
  (List.getD (vsList v) i ⟨0, 0⟩).ind

/-- Number of adjacent strict changes in a list; helper for `nonTies`. -/
def countChanges : List ℚ → ℕ
  | [] => 0
  | [_] => 0
  | a :: b :: t => (if b ≠ a then 1 else 0) + countChanges (b :: t)

/-- Model of the `non_ties` computation: `non_ties = 1` and then one
increment for every adjacent pair of distinct values in the sorted list. -/
def nonTies (l : List ℚ) : ℕ :=
  1 + countChanges l

/-- Modelled from the spec: the base label constant `FIRST_GROUP_NB` is
defined in `scg_headers.h`, which is not part of the sources; the file
comment and the spec state that group labels are consecutive integers
starting from 0, so the constant is 0. -/
def FIRST_GROUP_NB : ℕ := 0

/-- Prefix sums of the sorted values: models the array `w`
(`w[0] = 0` from the zeroed allocation, `w[i] = w[i-1] + vs[i-1].val`). -/
def wPre (sv : ℕ → ℚ) : ℕ → ℚ
  | 0 => 0
  | i + 1 => wPre sv i + sv i

/-- Prefix sums of the squared sorted values: models the array `w2`. -/
def w2Pre (sv : ℕ → ℚ) : ℕ → ℚ
  | 0 => 0
  | i + 1 => w2Pre sv i + sv i * sv i

/-- Cost of the interval of sorted positions `[i, j]` under the
symmetric/Laplacian kernel (`matrix == 1 || matrix == 2`):
`(w2[j+1]-w2[i]) - (w[j+1]-w[i])^2/(j-i+1)`, written from prefix sums.
Cells with `j ≤ i` are never written by the C loop and stay 0. -/
def costDev (sv : ℕ → ℚ) (i j : ℕ) : ℚ :=
  if i < j then
    (w2Pre sv (j + 1) - w2Pre sv i) -
      (wPre sv (j + 1) - wPre sv i) * (wPre sv (j + 1) - wPre sv i) / ((j - i + 1 : ℕ) : ℚ)
  else 0

/-- Sum of `f` over the window `[i, i + cnt)`, accumulated in ascending
order: models the loops `for(k=i; k<j; k++)` of the stochastic kernel. -/
def winSum (f : ℕ → ℚ) (i : ℕ) : ℕ → ℚ
  | 0 => 0
  | c + 1 => winSum f i c + f (i + c)

/-- Cost stored by the stochastic kernel (`matrix == 3`) for the cell
`(i, j)`, `i < j`: the C loops run `k` from `i` to `j-1`, so the sums
`t1`, `t2` and the squared deviations cover only `[i, j)` — position `j`
is excluded.  Cells with `j ≤ i` are never written and stay 0. -/
def costStoch (sv ps : ℕ → ℚ) (i j : ℕ) : ℚ :=
  if i < j then
    let t1 := winSum ps i (j - i)
    let t2 := winSum (fun k => ps k * sv k) i (j - i)
    let m := t2 / t1
    winSum (fun k => (sv k - m) * (sv k - m)) i (j - i)
  else 0

/-- Modelled from the spec: the stochastic-kernel cost the specification
describes for the interval `[i, j]`, with both endpoints included —
`sum over the interval of (value - weighted_mean)^2` where
`weighted_mean = (sum weight*value) / (sum weight)` over the same
interval.  Used only to compare against `costStoch`. -/
def specStochCost (sv ps : ℕ → ℚ) (i j : ℕ) : ℚ :=
  let t1 := winSum ps i (j + 1 - i)
  let t2 := winSum (fun k => ps k * sv k) i (j + 1 - i)
  let m := t2 / t1
  winSum (fun k => (sv k - m) * (sv k - m)) i (j + 1 - i)

/-- Model of `igraph_i_cost_matrix`: dispatch on the `matrix` selector. -/
def igraph_i_cost_matrix (matrix : ℕ) (sv ps : ℕ → ℚ) (i j : ℕ) : ℚ :=
  if matrix = 1 ∨ matrix = 2 then costDev sv i j
  else if matrix = 3 then costStoch sv ps i j
  else 0

/-- The inner minimisation loop `for(q=i-1; q<=j-1; q++)` of the dynamic
program: scans `len` candidates starting at `lo`, replacing the running
best `(value, code)` exactly when a candidate is strictly smaller, in
which case the stored code is `q + 2`. -/
def dpScan (cand : ℕ → ℚ) : ℕ → ℕ → ℚ × ℕ → ℚ × ℕ
  | _, 0, b => b
  | lo, len + 1, b =>
      dpScan cand (lo + 1) len (if cand lo < b.1 then (cand lo, lo + 2) else b)

/-- The tables `F` and `Q` of the dynamic program, as a function from
(row, column) to the pair `(F[row][col], Q[row][col])`.
Row 0: `F[0][j] = Cv[0][j]` and `Q[0][j] = 1` (the `Q[0][i]++` loop).
Row `r ≥ 1`, column `j ≥ r+1`: seed `F[r-1][r-1] + Cv[r][j]` with code 2,
then the scan over `q ∈ [r-1, j-1]`.  Column `j = r`: the diagonal
initialisation `Q[i][i] = i+1`, `F` left at its zeroed allocation.
Columns `j < r`: never written, both stay 0. -/
def FQmat (Cv : ℕ → ℕ → ℚ) : ℕ → ℕ → ℚ × ℕ
  | 0, j => (Cv 0 j, 1)
  | i + 1, j =>
      if i + 2 ≤ j then
        dpScan (fun q => (FQmat Cv i q).1 + Cv (q + 1) j) i (j - i)
          ((FQmat Cv i i).1 + Cv (i + 1) j, 2)
      else if j = i + 1 then (0, i + 2)
      else (0, 0)

/-- Pointwise update of a label array. -/
def updFn (g : ℕ → ℕ) (x v : ℕ) : ℕ → ℕ :=
  fun y => if y = x then v else g y

/-- The labelling loop `for(i=lo; i<=col; i++) gr[vs[i].ind] = lab`:
writes the constant `lab` at `ind lo, ind (lo+1), …` for `cnt` steps. -/
def labelRun (ind : ℕ → ℕ) (lab : ℕ) : ℕ → ℕ → (ℕ → ℕ) → ℕ → ℕ
  | _, 0, g => g
  | lo, c + 1, g => labelRun ind lab (lo + 1) c (updFn g (ind lo) lab)

/-- The singleton-unpacking loop `for(l=0; l<=j-1; l++)
gr[vs[l].ind] = l + FIRST_GROUP_NB`: writes `l + base` at `ind l` for
`l = start, …, start+cnt-1`. -/
def labelUp (ind : ℕ → ℕ) (base : ℕ) : ℕ → ℕ → (ℕ → ℕ) → ℕ → ℕ
  | _, 0, g => g
  | l, c + 1, g => labelUp ind base (l + 1) c (updFn g (ind l) (l + base))

/-- The backtracking loop of `igraph_i_optimal_partition`, running the
row index `j` from `nt-1` down to 0.  Besides the final label array it
returns `some j` when the `break` statement fired at row `j` (the
`Q[j][col] == 2 && j > 1` branch) and `none` when the loop ran to
completion. -/
def btLoop (Q : ℕ → ℕ → ℕ) (ind : ℕ → ℕ) (base : ℕ) :
    ℕ → ℕ → ℕ → (ℕ → ℕ) → (ℕ → ℕ) × Option ℕ
  | 0, col, pi, g =>
      (labelRun ind (pi - 1 + base) (Q 0 col - 1) (col + 2 - Q 0 col) g, none)
  | jj + 1, col, pi, g =>
      let j := jj + 1
      let qv := Q j col
      let g1 := labelRun ind (pi - 1 + base) (qv - 1) (col + 2 - qv) g
      if qv = 2 ∧ 1 < j then
        (labelUp ind base 0 j g1, some j)
      else
        btLoop Q ind base jj (qv - 2) (pi - 1) g1

/-- Model of `igraph_i_optimal_partition`.  Takes the input vector `v`,
the label array `gr` of the caller (an out-parameter in C, threaded through
here), the group count `nt`, the `matrix` selector and the probability
vector `p`; returns the status together with the returned sum of squares
on success, and the final state of the label array.  On the error path
(`nt >= non_ties`) the C code frees its buffers and raises
`IGRAPH_EINVAL` before touching `gr`, so the model returns `gr`
unchanged. -/
def igraph_i_optimal_partition (v : List ℚ) (gr : ℕ → ℕ) (nt matrix : ℕ)
    (p : ℕ → ℚ) : Except String ℚ × (ℕ → ℕ) :=
  let n := v.length
  if nonTies (List.map IndVal.val (vsList v)) ≤ nt then
    (Except.error "nt must be smaller than the number of unique values in v", gr)
  else
    let ps := fun i => p (sind v i)
    let Cv := igraph_i_cost_matrix matrix (sval v) ps
    let Qf := fun r c => (FQmat Cv r c).2
    let res := btLoop Qf (sind v) FIRST_GROUP_NB (nt - 1) (n - 1) nt gr
    (Except.ok (FQmat Cv (nt - 1) (n - 1)).1, res.1)

/-! ### The inner scan: first strict improvement wins, ties never overwrite -/

lemma dpScan_spec (cand : ℕ → ℚ) :
    ∀ (len lo : ℕ) (b : ℚ × ℕ),
      (dpScan cand lo len b = b ∧ ∀ q, lo ≤ q → q < lo + len → b.1 ≤ cand q) ∨
      (∃ qs, lo ≤ qs ∧ qs < lo + len ∧ dpScan cand lo len b = (cand qs, qs + 2) ∧
        cand qs < b.1 ∧ (∀ q, lo ≤ q → q < lo + len → cand qs ≤ cand q) ∧
        (∀ q, lo ≤ q → q < qs → cand qs < cand q)) := by
  intro len
  induction len with
  | zero =>
      intro lo b
      left
      refine ⟨rfl, ?_⟩
      intro q hq1 hq2
      omega
  | succ n ih =>
      intro lo b
      by_cases hlt : cand lo < b.1
      · have hstep : dpScan cand lo (n + 1) b = dpScan cand (lo + 1) n (cand lo, lo + 2) := by
          simp [dpScan, hlt]
        rcases ih (lo + 1) (cand lo, lo + 2) with ⟨heq, hmin⟩ | ⟨qs, h1, h2, h3, h4, h5, h6⟩
        · right
          refine ⟨lo, le_refl lo, by omega, by rw [hstep, heq], hlt, ?_, ?_⟩
          · intro q hq1 hq2
            rcases Nat.eq_or_lt_of_le hq1 with h | h
            · subst h
              exact le_refl _
            · exact hmin q h (by omega)
          · intro q hq1 hq2
            omega
        · right
          refine ⟨qs, by omega, by omega, by rw [hstep, h3], lt_trans h4 hlt, ?_, ?_⟩
          · intro q hq1 hq2
            rcases Nat.eq_or_lt_of_le hq1 with h | h
            · subst h
              exact le_of_lt h4
            · exact h5 q h (by omega)
          · intro q hq1 hq2
            rcases Nat.eq_or_lt_of_le hq1 with h | h
            · subst h
              exact h4
            · exact h6 q h hq2
      · have hstep : dpScan cand lo (n + 1) b = dpScan cand (lo + 1) n b := by
          simp [dpScan, hlt]
        have hble : b.1 ≤ cand lo := le_of_not_lt hlt
        rcases ih (lo + 1) b with ⟨heq, hmin⟩ | ⟨qs, h1, h2, h3, h4, h5, h6⟩
        · left
          refine ⟨by rw [hstep, heq], ?_⟩
          intro q hq1 hq2
          rcases Nat.eq_or_lt_of_le hq1 with h | h
          · subst h
            exact hble
          · exact hmin q h (by omega)
        · right
          refine ⟨qs, by omega, by omega, by rw [hstep, h3], h4, ?_, ?_⟩
          · intro q hq1 hq2
            rcases Nat.eq_or_lt_of_le hq1 with h | h
            · subst h
              exact le_of_lt (lt_of_lt_of_le h4 hble)
            · exact h5 q h (by omega)
          · intro q hq1 hq2
            rcases Nat.eq_or_lt_of_le hq1 with h | h
            · subst h
              exact lt_of_lt_of_le h4 hble
            · exact h6 q h hq2

/-! ### Basic facts about the `F`/`Q` tables -/

lemma FQmat_row0 (Cv : ℕ → ℕ → ℚ) (j : ℕ) : FQmat Cv 0 j = (Cv 0 j, 1) := rfl

lemma FQmat_diag (Cv : ℕ → ℕ → ℚ) (r : ℕ) (hr : 1 ≤ r) :
    FQmat Cv r r = (0, r + 1) := by
  obtain ⟨i, rfl⟩ : ∃ i, r = i + 1 := ⟨r - 1, by omega⟩
  have h1 : ¬ (i + 2 ≤ i + 1) := by omega
  simp [FQmat, h1]

/-- The content of one computed cell `(r, c)` with `1 ≤ r < c`: the value
is the candidate at the earliest split point `qs` attaining the minimum
over `q ∈ [r-1, c-1]`, the stored code is 2 when `qs = r-1` (the seed was
never beaten) and `qs + 2` otherwise, and the attained value is minimal,
strictly below every earlier candidate. -/
lemma FQ_cell (Cv : ℕ → ℕ → ℚ) (r c : ℕ) (hr : 1 ≤ r) (hc : r < c) :
    ∃ qs, r - 1 ≤ qs ∧ qs < c ∧
      (FQmat Cv r c).1 = (FQmat Cv (r - 1) qs).1 + Cv (qs + 1) c ∧
      (FQmat Cv r c).2 = (if qs = r - 1 then 2 else qs + 2) ∧
      (∀ q, r - 1 ≤ q → q < c →
        (FQmat Cv r c).1 ≤ (FQmat Cv (r - 1) q).1 + Cv (q + 1) c) ∧
      (∀ q, r - 1 ≤ q → q < qs →
        (FQmat Cv r c).1 < (FQmat Cv (r - 1) q).1 + Cv (q + 1) c) := by
  obtain ⟨i, rfl⟩ : ∃ i, r = i + 1 := ⟨r - 1, by omega⟩
  simp only [Nat.add_sub_cancel]
  have hg : i + 2 ≤ c := by omega
  have hunf : FQmat Cv (i + 1) c =
      dpScan (fun q => (FQmat Cv i q).1 + Cv (q + 1) c) i (c - i)
        ((FQmat Cv i i).1 + Cv (i + 1) c, 2) := by
    simp [FQmat, hg]
  have hseed : ((FQmat Cv i i).1 + Cv (i + 1) c, (2 : ℕ)).1 =
      (fun q => (FQmat Cv i q).1 + Cv (q + 1) c) i := rfl
  rcases dpScan_spec (fun q => (FQmat Cv i q).1 + Cv (q + 1) c) (c - i) i
      ((FQmat Cv i i).1 + Cv (i + 1) c, 2) with ⟨heq, hmin⟩ | ⟨qs, h1, h2, h3, h4, h5, h6⟩
  · refine ⟨i, by omega, by omega, ?_, ?_, ?_, ?_⟩
    · rw [hunf, heq]
    · rw [hunf, heq]
      simp
    · intro q hq1 hq2
      rw [hunf, heq]
      exact hmin q (by omega) (by omega)
    · intro q hq1 hq2
      omega
  · have hqs : i < qs := by
      rcases Nat.eq_or_lt_of_le h1 with h | h
      · exfalso
        rw [← h] at h4
        exact absurd h4 (lt_irrefl _)
      · exact h
    refine ⟨qs, by omega, by omega, ?_, ?_, ?_, ?_⟩
    · rw [hunf, h3]
    · rw [hunf, h3]
      have hne : ¬ (qs = i) := by omega
      simp [hne]
    · intro q hq1 hq2
      rw [hunf, h3]
      rcases Nat.eq_or_lt_of_le hq1 with h | h
      · have hq : q = i := by omega
        subst hq
        exact le_of_lt h4
      · exact h5 q (by omega) (by omega)
    · intro q hq1 hq2
      rw [hunf, h3]
      rcases Nat.eq_or_lt_of_le hq1 with h | h
      · have hq : q = i := by omega
        subst hq
        exact h4
      · exact h6 q (by omega) hq2

/-! ### Behaviour of the labelling loops -/

lemma labelRun_ne (ind : ℕ → ℕ) (lab : ℕ) :
    ∀ (cnt lo : ℕ) (g : ℕ → ℕ) (x : ℕ),
      (∀ i, lo ≤ i → i < lo + cnt → ind i ≠ x) →
      labelRun ind lab lo cnt g x = g x := by
  intro cnt
  induction cnt with
  | zero => intro lo g x _; rfl
  | succ c ih =>
      intro lo g x hx
      have h1 : labelRun ind lab lo (c + 1) g x =
          labelRun ind lab (lo + 1) c (updFn g (ind lo) lab) x := rfl
      rw [h1, ih (lo + 1) _ x (fun i hi1 hi2 => hx i (by omega) (by omega))]
      have h2 : ind lo ≠ x := hx lo (le_refl _) (by omega)
      simp [updFn, Ne.symm h2]

lemma labelRun_mem (ind : ℕ → ℕ) (lab : ℕ) :
    ∀ (cnt lo : ℕ) (g : ℕ → ℕ) (i : ℕ), lo ≤ i → i < lo + cnt →
      labelRun ind lab lo cnt g (ind i) = lab := by
  intro cnt
  induction cnt with
  | zero => intro lo g i h1 h2; omega
  | succ c ih =>
      intro lo g i h1 h2
      have hstep : labelRun ind lab lo (c + 1) g (ind i) =
          labelRun ind lab (lo + 1) c (updFn g (ind lo) lab) (ind i) := rfl
      rw [hstep]
      rcases Nat.eq_or_lt_of_le h1 with h | h
      · subst h
        by_cases hex : ∃ k, lo + 1 ≤ k ∧ k < lo + 1 + c ∧ ind k = ind lo
        · obtain ⟨k, hk1, hk2, hk3⟩ := hex
          rw [← hk3]
          exact ih (lo + 1) _ k hk1 hk2
        · push_neg at hex
          rw [labelRun_ne ind lab c (lo + 1) _ (ind lo) (fun k u1 u2 => hex k u1 u2)]
          simp [updFn]
      · exact ih (lo + 1) _ i h (by omega)

lemma labelUp_frame (ind : ℕ → ℕ) (base : ℕ) :
    ∀ (cnt l : ℕ) (g : ℕ → ℕ) (x : ℕ),
      (∀ i, l ≤ i → i < l + cnt → ind i ≠ x) →
      labelUp ind base l cnt g x = g x := by
  intro cnt
  induction cnt with
  | zero => intro l g x _; rfl
  | succ c ih =>
      intro l g x hx
      have hstep : labelUp ind base l (c + 1) g x =
          labelUp ind base (l + 1) c (updFn g (ind l) (l + base)) x := rfl
      rw [hstep, ih (l + 1) _ x (fun i hi1 hi2 => hx i (by omega) (by omega))]
      have h2 : ind l ≠ x := hx l (le_refl _) (by omega)
      simp [updFn, Ne.symm h2]

lemma labelUp_mem (ind : ℕ → ℕ) (base : ℕ) :
    ∀ (cnt l : ℕ) (g : ℕ → ℕ) (i : ℕ), l ≤ i → i < l + cnt →
      (∀ i1 i2, l ≤ i1 → i1 < l + cnt → l ≤ i2 → i2 < l + cnt →
        ind i1 = ind i2 → i1 = i2) →
      labelUp ind base l cnt g (ind i) = i + base := by
  intro cnt
  induction cnt with
  | zero => intro l g i h1 h2; omega
  | succ c ih =>
      intro l g i h1 h2 hinj
      have hstep : labelUp ind base l (c + 1) g (ind i) =
          labelUp ind base (l + 1) c (updFn g (ind l) (l + base)) (ind i) := rfl
      rw [hstep]
      rcases Nat.eq_or_lt_of_le h1 with h | h
      · subst h
        have hne : ∀ k, l + 1 ≤ k → k < l + 1 + c → ind k ≠ ind l := by
          intro k hk1 hk2 heq
          have := hinj k l (by omega) (by omega) (by omega) (by omega) heq
          omega
        rw [labelUp_frame ind base c (l + 1) _ (ind l) hne]
        simp [updFn]
      · exact ih (l + 1) _ i h (by omega)
          (fun i1 i2 a1 a2 a3 a4 e => hinj i1 i2 (by omega) (by omega) (by omega) (by omega) e)

lemma btLoop_zero (Q : ℕ → ℕ → ℕ) (ind : ℕ → ℕ) (base col pi : ℕ) (g : ℕ → ℕ) :
    btLoop Q ind base 0 col pi g =
      (labelRun ind (pi - 1 + base) (Q 0 col - 1) (col + 2 - Q 0 col) g, none) := rfl

lemma btLoop_succ (Q : ℕ → ℕ → ℕ) (ind : ℕ → ℕ) (base jj col pi : ℕ) (g : ℕ → ℕ) :
    btLoop Q ind base (jj + 1) col pi g =
      if Q (jj + 1) col = 2 ∧ 1 < jj + 1 then
        (labelUp ind base 0 (jj + 1)
          (labelRun ind (pi - 1 + base) (Q (jj + 1) col - 1) (col + 2 - Q (jj + 1) col) g),
         some (jj + 1))
      else
        btLoop Q ind base jj (Q (jj + 1) col - 2) (pi - 1)
          (labelRun ind (pi - 1 + base) (Q (jj + 1) col - 1) (col + 2 - Q (jj + 1) col) g) := rfl

/-- Correctness of the backtracking walk, for any tables satisfying the
shape the dynamic program guarantees: started at row `j`, column
`col ≥ j` with `part_ind = j+1`, it produces `j+1` non-empty contiguous
blocks of sorted positions delimited by `b 0 = 0 < b 1 < … < b (j+1) =
col+1`, labels block `m` with `m + base`, touches no other entry of the
label array, and `F j col` is the sum of the block costs. -/
lemma btSpec (Q : ℕ → ℕ → ℕ) (F Cv : ℕ → ℕ → ℚ) (ind : ℕ → ℕ) (base : ℕ)
    (hQ0 : ∀ c, Q 0 c = 1)
    (hF0 : ∀ c, F 0 c = Cv 0 c)
    (hFdiag : ∀ r, F r r = 0)
    (hCvDiag : ∀ i, Cv i i = 0)
    (hQdiag : ∀ r, 1 ≤ r → Q r r = r + 1)
    (hcell : ∀ r c, 1 ≤ r → r < c → ∃ q, r - 1 ≤ q ∧ q < c ∧
        F r c = F (r - 1) q + Cv (q + 1) c ∧
        Q r c = (if q = r - 1 then 2 else q + 2)) :
    ∀ (j col : ℕ) (g : ℕ → ℕ), j ≤ col →
      (∀ i1 i2, i1 ≤ col → i2 ≤ col → ind i1 = ind i2 → i1 = i2) →
      ∃ b : ℕ → ℕ, b 0 = 0 ∧ b (j + 1) = col + 1 ∧
        (∀ m, m ≤ j → b m < b (m + 1)) ∧
        (∀ m i, m ≤ j → b m ≤ i → i < b (m + 1) →
          (btLoop Q ind base j col (j + 1) g).1 (ind i) = m + base) ∧
        (∀ x, (∀ i, i ≤ col → ind i ≠ x) →
          (btLoop Q ind base j col (j + 1) g).1 x = g x) ∧
        F j col = ∑ m ∈ Finset.range (j + 1), Cv (b m) (b (m + 1) - 1) := by
  intro j
  induction j with
  | zero =>
      intro col g hjc hinj
      have hbt : (btLoop Q ind base 0 col 1 g).1 = labelRun ind base 0 (col + 1) g := by
        rw [btLoop_zero, hQ0]
        norm_num
      refine ⟨fun m => if m = 0 then 0 else col + 1, by simp, by simp, ?_, ?_, ?_, ?_⟩
      · intro m hm
        have hm0 : m = 0 := by omega
        subst hm0
        simp
      · intro m i hm hi1 hi2
        have hm0 : m = 0 := by omega
        subst hm0
        simp only [if_pos rfl] at hi1
        have hi2b : i < col + 1 := by
          simpa using hi2
        rw [hbt, labelRun_mem ind base (col + 1) 0 g i (by omega) (by omega)]
        omega
      · intro x hx
        rw [hbt]
        exact labelRun_ne ind base (col + 1) 0 g x (fun i h1 h2 => hx i (by omega))
      · rw [hF0]
        simp
  | succ jj ih =>
      intro col g hjc hinj
      by_cases hdg : col = jj + 1
      · -- diagonal entry: Q[j][j] = j+1, peels the singleton at position j
        subst hdg
        have hq : Q (jj + 1) (jj + 1) = jj + 2 := by
          have := hQdiag (jj + 1) (by omega)
          omega
        have hcond : ¬ (Q (jj + 1) (jj + 1) = 2 ∧ 1 < jj + 1) := by
          rw [hq]
          omega
        have hres : btLoop Q ind base (jj + 1) (jj + 1) (jj + 2) g =
            btLoop Q ind base jj jj (jj + 1)
              (labelRun ind (jj + 1 + base) (jj + 1) 1 g) := by
          rw [btLoop_succ, if_neg hcond, hq]
          have e1 : jj + 2 - 2 = jj := by omega
          have e2 : jj + 2 - 1 = jj + 1 := by omega
          have e3 : jj + 1 + 2 - (jj + 2) = 1 := by omega
          rw [e1, e2, e3]
        set g1 := labelRun ind (jj + 1 + base) (jj + 1) 1 g with hg1
        obtain ⟨bp, hb0, hbtop, hbstep, hblab, hbfr, hbcost⟩ :=
          ih jj g1 (le_refl jj)
            (fun i1 i2 a1 a2 e => hinj i1 i2 (by omega) (by omega) e)
        refine ⟨fun m => if m ≤ jj + 1 then bp m else jj + 2, ?_, ?_, ?_, ?_, ?_, ?_⟩
        · simpa using hb0
        · simp
        · intro m hm
          rcases Nat.lt_or_ge m (jj + 1) with h | h
          · have e1 : m ≤ jj + 1 := by omega
            have e2 : m + 1 ≤ jj + 1 := by omega
            simp only [if_pos e1, if_pos e2]
            exact hbstep m (by omega)
          · have hm1 : m = jj + 1 := by omega
            subst hm1
            have e1 : jj + 1 ≤ jj + 1 := le_refl _
            have e2 : ¬ (jj + 1 + 1 ≤ jj + 1) := by omega
            simp only [if_pos e1, if_neg e2]
            rw [hbtop]
            omega
        · intro m i hm hi1 hi2
          simp only [] at hi1 hi2
          rw [hres]
          rcases Nat.lt_or_ge m (jj + 1) with h | h
          · have e1 : m ≤ jj + 1 := by omega
            have e2 : m + 1 ≤ jj + 1 := by omega
            rw [if_pos e1] at hi1
            rw [if_pos e2] at hi2
            exact hblab m i (by omega) hi1 hi2
          · have hm1 : m = jj + 1 := by omega
            subst hm1
            rw [if_pos (le_refl _)] at hi1
            rw [hbtop] at hi1
            have e2 : ¬ (jj + 1 + 1 ≤ jj + 1) := by omega
            rw [if_neg e2] at hi2
            have hieq : i = jj + 1 := by omega
            subst hieq
            have hfr : ∀ i2, i2 ≤ jj → ind i2 ≠ ind (jj + 1) := by
              intro i2 h2 e
              have := hinj i2 (jj + 1) (by omega) (by omega) e
              omega
            rw [hbfr (ind (jj + 1)) hfr, hg1,
              labelRun_mem ind (jj + 1 + base) 1 (jj + 1) g (jj + 1) (le_refl _) (by omega)]
        · intro x hx
          rw [hres, hbfr x (fun i h => hx i (by omega)), hg1]
          exact labelRun_ne ind (jj + 1 + base) 1 (jj + 1) g x (fun i h1 h2 => hx i (by omega))
        · rw [hFdiag]
          rw [Finset.sum_range_succ]
          have hcg : ∑ m ∈ Finset.range (jj + 1),
              Cv ((fun m => if m ≤ jj + 1 then bp m else jj + 2) m)
                ((fun m => if m ≤ jj + 1 then bp m else jj + 2) (m + 1) - 1) =
              ∑ m ∈ Finset.range (jj + 1), Cv (bp m) (bp (m + 1) - 1) := by
            refine Finset.sum_congr rfl ?_
            intro m hm
            have hmlt : m < jj + 1 := Finset.mem_range.mp hm
            have e1 : m ≤ jj + 1 := by omega
            have e2 : m + 1 ≤ jj + 1 := by omega
            simp only [if_pos e1, if_pos e2]
          rw [hcg, ← hbcost, hFdiag]
          have e1 : jj + 1 ≤ jj + 1 := le_refl _
          have e2 : ¬ (jj + 1 + 1 ≤ jj + 1) := by omega
          simp only [if_pos e1, if_neg e2, hbtop]
          have e3 : jj + 2 - 1 = jj + 1 := by omega
          rw [e3, hCvDiag]
          norm_num
      · -- off-diagonal: use the recorded split point of the cell
        have hlt : jj + 1 < col := by omega
        obtain ⟨q, hq1, hq2, hFval, hQval⟩ := hcell (jj + 1) col (by omega) hlt
        simp only [Nat.add_sub_cancel] at hq1 hFval hQval
        by_cases hbr : q = jj ∧ 1 ≤ jj
        · -- the break branch: Q = 2 with row > 1
          obtain ⟨hqjj, hjj1⟩ := hbr
          have hq9 : jj = q := hqjj.symm
          subst hq9
          rw [if_pos rfl] at hQval
          have hcond : Q (jj + 1) col = 2 ∧ 1 < jj + 1 := ⟨hQval, by omega⟩
          have hres : btLoop Q ind base (jj + 1) col (jj + 2) g =
              (labelUp ind base 0 (jj + 1)
                (labelRun ind (jj + 1 + base) 1 col g), some (jj + 1)) := by
            rw [btLoop_succ, if_pos hcond, hQval]
            have e1 : jj + 2 - 1 + base = jj + 1 + base := by omega
            have e2 : (2 : ℕ) - 1 = 1 := by omega
            have e3 : col + 2 - 2 = col := by omega
            rw [e1, e2, e3]
          refine ⟨fun m => if m ≤ jj + 1 then m else col + 1, by simp, by simp, ?_, ?_, ?_, ?_⟩
          · intro m hm
            rcases Nat.lt_or_ge m (jj + 1) with h | h
            · have e1 : m ≤ jj + 1 := by omega
              have e2 : m + 1 ≤ jj + 1 := by omega
              simp only [if_pos e1, if_pos e2]
              omega
            · have hm1 : m = jj + 1 := by omega
              subst hm1
              have e2 : ¬ (jj + 1 + 1 ≤ jj + 1) := by omega
              simp only [if_pos (le_refl (jj + 1)), if_neg e2]
              omega
          · intro m i hm hi1 hi2
            simp only [] at hi1 hi2
            rw [hres]
            rcases Nat.lt_or_ge m (jj + 1) with h | h
            · have e1 : m ≤ jj + 1 := by omega
              have e2 : m + 1 ≤ jj + 1 := by omega
              rw [if_pos e1] at hi1
              rw [if_pos e2] at hi2
              have hieq : i = m := by omega
              subst hieq
              exact labelUp_mem ind base (jj + 1) 0 _ i (by omega) (by omega)
                (fun i1 i2 a1 a2 a3 a4 e => hinj i1 i2 (by omega) (by omega) e)
            · have hm1 : m = jj + 1 := by omega
              subst hm1
              rw [if_pos (le_refl _)] at hi1
              have e2 : ¬ (jj + 1 + 1 ≤ jj + 1) := by omega
              rw [if_neg e2] at hi2
              have hfr : ∀ l, 0 ≤ l → l < 0 + (jj + 1) → ind l ≠ ind i := by
                intro l a1 a2 e
                have := hinj l i (by omega) (by omega) e
                omega
              dsimp only
              rw [labelUp_frame ind base (jj + 1) 0 _ (ind i) hfr,
                labelRun_mem ind (jj + 1 + base) col 1 g i (by omega) (by omega)]
          · intro x hx
            rw [hres]
            dsimp only
            rw [labelUp_frame ind base (jj + 1) 0 _ x (fun l a1 a2 => hx l (by omega))]
            exact labelRun_ne ind (jj + 1 + base) col 1 g x (fun i h1 h2 => hx i (by omega))
          · rw [hFval, hFdiag, Finset.sum_range_succ]
            have hz : ∑ m ∈ Finset.range (jj + 1),
                Cv ((fun m => if m ≤ jj + 1 then m else col + 1) m)
                  ((fun m => if m ≤ jj + 1 then m else col + 1) (m + 1) - 1) = 0 := by
              refine Finset.sum_eq_zero ?_
              intro m hm
              have hmlt : m < jj + 1 := Finset.mem_range.mp hm
              have e1 : m ≤ jj + 1 := by omega
              have e2 : m + 1 ≤ jj + 1 := by omega
              simp only [if_pos e1, if_pos e2, Nat.add_sub_cancel]
              exact hCvDiag m
            rw [hz]
            have e2 : ¬ (jj + 1 + 1 ≤ jj + 1) := by omega
            simp only [if_pos (le_refl (jj + 1)), if_neg e2, Nat.add_sub_cancel]
        · -- the continue branch: normal split, also covering Q = 2 at row 1
          have hqv2 : Q (jj + 1) col - 2 = q ∧ Q (jj + 1) col - 1 = q + 1 ∧
              col + 2 - Q (jj + 1) col = col - q ∧
              ¬ (Q (jj + 1) col = 2 ∧ 1 < jj + 1) := by
            by_cases hqj : q = jj
            · have h9 : jj = q := hqj.symm
              subst h9
              rw [if_pos rfl] at hQval
              have hjj0 : jj = 0 := by
                rcases Nat.eq_zero_or_pos jj with h | h
                · exact h
                · exact absurd ⟨rfl, h⟩ hbr
              subst hjj0
              rw [hQval]
              omega
            · rw [if_neg hqj] at hQval
              rw [hQval]
              omega
          obtain ⟨e1, e2, e3, hcond⟩ := hqv2
          have hres : btLoop Q ind base (jj + 1) col (jj + 2) g =
              btLoop Q ind base jj q (jj + 1)
                (labelRun ind (jj + 1 + base) (q + 1) (col - q) g) := by
            rw [btLoop_succ, if_neg hcond, e1, e2, e3]
            have e4 : jj + 2 - 1 + base = jj + 1 + base := by omega
            have e5 : jj + 2 - 1 = jj + 1 := by omega
            rw [e4, e5]
          set g1 := labelRun ind (jj + 1 + base) (q + 1) (col - q) g with hg1
          obtain ⟨bp, hb0, hbtop, hbstep, hblab, hbfr, hbcost⟩ :=
            ih q g1 hq1
              (fun i1 i2 a1 a2 e => hinj i1 i2 (by omega) (by omega) e)
          refine ⟨fun m => if m ≤ jj + 1 then bp m else col + 1, ?_, ?_, ?_, ?_, ?_, ?_⟩
          · simpa using hb0
          · simp
          · intro m hm
            rcases Nat.lt_or_ge m (jj + 1) with h | h
            · have f1 : m ≤ jj + 1 := by omega
              have f2 : m + 1 ≤ jj + 1 := by omega
              simp only [if_pos f1, if_pos f2]
              exact hbstep m (by omega)
            · have hm1 : m = jj + 1 := by omega
              subst hm1
              have f2 : ¬ (jj + 1 + 1 ≤ jj + 1) := by omega
              simp only [if_pos (le_refl (jj + 1)), if_neg f2, hbtop]
              omega
          · intro m i hm hi1 hi2
            simp only [] at hi1 hi2
            rw [hres]
            rcases Nat.lt_or_ge m (jj + 1) with h | h
            · have f1 : m ≤ jj + 1 := by omega
              have f2 : m + 1 ≤ jj + 1 := by omega
              rw [if_pos f1] at hi1
              rw [if_pos f2] at hi2
              exact hblab m i (by omega) hi1 hi2
            · have hm1 : m = jj + 1 := by omega
              subst hm1
              rw [if_pos (le_refl _), hbtop] at hi1
              have f2 : ¬ (jj + 1 + 1 ≤ jj + 1) := by omega
              rw [if_neg f2] at hi2
              have hfr : ∀ i2, i2 ≤ q → ind i2 ≠ ind i := by
                intro i2 h2 e
                have := hinj i2 i (by omega) (by omega) e
                omega
              rw [hbfr (ind i) hfr, hg1,
                labelRun_mem ind (jj + 1 + base) (col - q) (q + 1) g i (by omega) (by omega)]
          · intro x hx
            rw [hres, hbfr x (fun i h => hx i (by omega)), hg1]
            exact labelRun_ne ind (jj + 1 + base) (col - q) (q + 1) g x
              (fun i h1 h2 => hx i (by omega))
          · rw [hFval, Finset.sum_range_succ]
            have hcg : ∑ m ∈ Finset.range (jj + 1),
                Cv ((fun m => if m ≤ jj + 1 then bp m else col + 1) m)
                  ((fun m => if m ≤ jj + 1 then bp m else col + 1) (m + 1) - 1) =
                ∑ m ∈ Finset.range (jj + 1), Cv (bp m) (bp (m + 1) - 1) := by
              refine Finset.sum_congr rfl ?_
              intro m hm
              have hmlt : m < jj + 1 := Finset.mem_range.mp hm
              have f1 : m ≤ jj + 1 := by omega
              have f2 : m + 1 ≤ jj + 1 := by omega
              simp only [if_pos f1, if_pos f2]
            rw [hcg, ← hbcost]
            have f2 : ¬ (jj + 1 + 1 ≤ jj + 1) := by omega
            simp only [if_pos (le_refl (jj + 1)), if_neg f2, hbtop, Nat.add_sub_cancel]

/-! ### The sorted sequence is a permutation carrying distinct indices -/

lemma insertIV_perm (a : IndVal) : ∀ l : List IndVal, (insertIV a l).Perm (a :: l) := by
  intro l
  induction l with
  | nil => simp [insertIV]
  | cons b t ih =>
      by_cases h : a.val ≤ b.val
      · simp [insertIV, h]
      · have hstep : insertIV a (b :: t) = b :: insertIV a t := by
          simp [insertIV, h]
        rw [hstep]
        exact List.Perm.trans (List.Perm.cons b ih) (List.Perm.swap a b t)

lemma sortIV_perm : ∀ l : List IndVal, (sortIV l).Perm l := by
  intro l
  induction l with
  | nil => simp [sortIV]
  | cons x t ih =>
      exact List.Perm.trans (insertIV_perm x (sortIV t)) (List.Perm.cons x ih)

lemma withIdx_map_ind : ∀ (l : List ℚ) (i : ℕ),
    (withIdx l i).map IndVal.ind = List.range' i l.length := by
  intro l
  induction l with
  | nil => intro i; simp [withIdx]
  | cons x t ih =>
      intro i
      simp [withIdx, List.range', ih (i + 1)]

lemma withIdx_length (l : List ℚ) : ∀ i, (withIdx l i).length = l.length := by
  induction l with
  | nil => intro i; rfl
  | cons x t ih => intro i; simp [withIdx, ih]

lemma vsList_length (v : List ℚ) : (vsList v).length = v.length := by
  show (sortIV (withIdx v 0)).length = v.length
  rw [List.Perm.length_eq (sortIV_perm (withIdx v 0)), withIdx_length]

lemma vsList_ind_nodup (v : List ℚ) : ((vsList v).map IndVal.ind).Nodup := by
  have hperm : ((vsList v).map IndVal.ind).Perm ((withIdx v 0).map IndVal.ind) :=
    List.Perm.map IndVal.ind (sortIV_perm (withIdx v 0))
  rw [withIdx_map_ind] at hperm
  exact (List.Perm.nodup_iff hperm).mpr (List.nodup_range' 0 v.length)

lemma sind_get (v : List ℚ) (i : ℕ) (h : i < v.length) :
    ((vsList v).map IndVal.ind).get ⟨i, by rw [List.length_map, vsList_length]; exact h⟩ =
      sind v i := by
  have hb : i < (vsList v).length := by rw [vsList_length]; exact h
  rw [sind, List.getD_eq_getElem (vsList v) ⟨0, 0⟩ hb]
  simp

lemma sind_injOn (v : List ℚ) :
    ∀ i1 i2, i1 < v.length → i2 < v.length → sind v i1 = sind v i2 → i1 = i2 := by
  intro i1 i2 h1 h2 he
  have he2 : ((vsList v).map IndVal.ind).get
      ⟨i1, by rw [List.length_map, vsList_length]; exact h1⟩ =
      ((vsList v).map IndVal.ind).get
      ⟨i2, by rw [List.length_map, vsList_length]; exact h2⟩ := by
    rw [sind_get v i1 h1, sind_get v i2 h2]
    exact he
  have hfin := (List.Nodup.get_inj_iff (vsList_ind_nodup v)).mp he2
  simpa using hfin

/-! ### Helpers to read the block structure off the backtracker -/

lemma bMono (b : ℕ → ℕ) (j : ℕ) (hstep : ∀ m, m ≤ j → b m < b (m + 1)) :
    ∀ d m, m + d ≤ j + 1 → b m ≤ b (m + d) := by
  intro d
  induction d with
  | zero => intro m _; exact le_refl _
  | succ dd ih =>
      intro m hm
      have h1 : b m ≤ b (m + dd) := ih m (by omega)
      have h2 : b (m + dd) < b (m + dd + 1) := hstep (m + dd) (by omega)
      have h3 : m + (dd + 1) = m + dd + 1 := rfl
      rw [h3]
      omega

lemma blockFind : ∀ (j : ℕ) (b : ℕ → ℕ) (N : ℕ), b 0 = 0 → b (j + 1) = N →
    (∀ m, m ≤ j → b m < b (m + 1)) → ∀ i, i < N →
    ∃ m, m ≤ j ∧ b m ≤ i ∧ i < b (m + 1) := by
  intro j
  induction j with
  | zero =>
      intro b N h0 htop hstep i hi
      exact ⟨0, le_refl _, by omega, by omega⟩
  | succ jj ih =>
      intro b N h0 htop hstep i hi
      rcases Nat.lt_or_ge i (b (jj + 1)) with h | h
      · obtain ⟨m, hm1, hm2, hm3⟩ :=
          ih b (b (jj + 1)) h0 rfl (fun m hm => hstep m (by omega)) i h
        exact ⟨m, by omega, hm2, hm3⟩
      · exact ⟨jj + 1, le_refl _, h, by omega⟩

/-! ### Discharging the hypotheses of `btSpec` for the real tables -/

lemma cost_matrix_diag (matrix : ℕ) (sv ps : ℕ → ℚ) (i : ℕ) :
    igraph_i_cost_matrix matrix sv ps i i = 0 := by
  rw [igraph_i_cost_matrix]
  rcases em (matrix = 1 ∨ matrix = 2) with h | h
  · rw [if_pos h, costDev, if_neg (lt_irrefl i)]
  · rw [if_neg h]
    rcases em (matrix = 3) with h3 | h3
    · rw [if_pos h3, costStoch, if_neg (lt_irrefl i)]
    · rw [if_neg h3]

lemma FQmat_F_diag (Cv : ℕ → ℕ → ℚ) (h00 : Cv 0 0 = 0) (r : ℕ) :
    (FQmat Cv r r).1 = 0 := by
  match r with
  | 0 => exact h00
  | i + 1 =>
      rw [FQmat_diag Cv (i + 1) (by omega)]

lemma FQ_hcell (Cv : ℕ → ℕ → ℚ) :
    ∀ r c, 1 ≤ r → r < c → ∃ q, r - 1 ≤ q ∧ q < c ∧
      (FQmat Cv r c).1 = (FQmat Cv (r - 1) q).1 + Cv (q + 1) c ∧
      (FQmat Cv r c).2 = (if q = r - 1 then 2 else q + 2) := by
  intro r c hr hc
  obtain ⟨q, h1, h2, h3, h4, _, _⟩ := FQ_cell Cv r c hr hc
  exact ⟨q, h1, h2, h3, h4⟩

lemma countChanges_le : ∀ (t : List ℚ) (a : ℚ), countChanges (a :: t) ≤ t.length := by
  intro t
  induction t with
  | nil => intro a; simp [countChanges]
  | cons b tt ih =>
      intro a
      have h1 : countChanges (a :: b :: tt) =
          (if b ≠ a then 1 else 0) + countChanges (b :: tt) := rfl
      have h2 := ih b
      have h3 : (if b ≠ a then 1 else 0) ≤ 1 := by
        split
        · exact le_refl _
        · omega
      simp only [h1, List.length_cons]
      omega

lemma nonTies_le (v : List ℚ) (hv : v ≠ []) :
    nonTies (List.map IndVal.val (vsList v)) ≤ v.length := by
  have hlen : (List.map IndVal.val (vsList v)).length = v.length := by
    rw [List.length_map, vsList_length]
  match hml : List.map IndVal.val (vsList v) with
  | [] =>
      rw [hml] at hlen
      simp at hlen
      exact absurd (List.length_eq_zero.mp hlen.symm) hv
  | a :: t =>
      rw [hml] at hlen
      have := countChanges_le t a
      rw [nonTies]
      simp only [List.length_cons] at hlen
      omega

/-- Backbone fact for the success path of `igraph_i_optimal_partition`:
there are split points `b 0 = 0 < b 1 < … < b nt = n` on sorted
positions such that every sorted position `i` in block `m` gets label
`m + FIRST_GROUP_NB` (read back through the original index `vs[i].ind`),
and the returned scalar is the sum of the cost-matrix entries of the
blocks. -/
lemma driver_blocks (v : List ℚ) (gr : ℕ → ℕ) (nt matrix : ℕ) (p : ℕ → ℚ)
    (h1 : 1 ≤ nt) (h2 : nt < nonTies (List.map IndVal.val (vsList v))) :
    ∃ b : ℕ → ℕ, b 0 = 0 ∧ b nt = v.length ∧
      (∀ m, m < nt → b m < b (m + 1)) ∧
      (∀ m i, m < nt → b m ≤ i → i < b (m + 1) →
        (igraph_i_optimal_partition v gr nt matrix p).2 (sind v i) = m + FIRST_GROUP_NB) ∧
      (igraph_i_optimal_partition v gr nt matrix p).1 =
        Except.ok (∑ m ∈ Finset.range nt,
          igraph_i_cost_matrix matrix (sval v) (fun i => p (sind v i)) (b m) (b (m + 1) - 1)) := by
  have hv : v ≠ [] := by
    intro he
    subst he
    have : nonTies (List.map IndVal.val (vsList [])) = 1 := rfl
    omega
  have hn1 : 1 ≤ v.length := by
    rcases v with _ | ⟨a, t⟩
    · exact absurd rfl hv
    · simp
  have hle : nonTies (List.map IndVal.val (vsList v)) ≤ v.length := nonTies_le v hv
  have hntn : nt < v.length := by omega
  have hcond : ¬ (nonTies (List.map IndVal.val (vsList v)) ≤ nt) := by omega
  set Cv := igraph_i_cost_matrix matrix (sval v) (fun i => p (sind v i)) with hCv
  have hdrv : igraph_i_optimal_partition v gr nt matrix p =
      (Except.ok (FQmat Cv (nt - 1) (v.length - 1)).1,
        (btLoop (fun r c => (FQmat Cv r c).2) (sind v) FIRST_GROUP_NB
          (nt - 1) (v.length - 1) nt gr).1) := by
    rw [igraph_i_optimal_partition]
    simp only [if_neg hcond]
  have h00 : Cv 0 0 = 0 := cost_matrix_diag matrix _ _ 0
  obtain ⟨b, hb0, hbtop, hbstep, hblab, hbfr, hbcost⟩ :=
    btSpec (fun r c => (FQmat Cv r c).2) (fun r c => (FQmat Cv r c).1) Cv
      (sind v) FIRST_GROUP_NB
      (fun c => rfl)
      (fun c => rfl)
      (fun r => FQmat_F_diag Cv h00 r)
      (fun i => cost_matrix_diag matrix _ _ i)
      (fun r hr => by
        show (FQmat Cv r r).2 = r + 1
        rw [FQmat_diag Cv r hr])
      (FQ_hcell Cv)
      (nt - 1) (v.length - 1) gr (by omega)
      (fun i1 i2 a1 a2 e => sind_injOn v i1 i2 (by omega) (by omega) e)
  have ent : nt - 1 + 1 = nt := by omega
  have en : v.length - 1 + 1 = v.length := by omega
  rw [ent] at hbtop hbcost
  rw [en] at hbtop
  refine ⟨b, hb0, hbtop, ?_, ?_, ?_⟩
  · intro m hm
    exact hbstep m (by omega)
  · intro m i hm hi1 hi2
    rw [hdrv]
    have hj : nt - 1 + 1 = nt := by omega
    have := hblab m i (by omega) hi1 hi2
    rw [hj] at this
    exact this
  · rw [hdrv]
    have := hbcost
    rw [this]

/-! ### Monotonicity machinery for the deviation kernel -/

lemma FQ_min (Cv : ℕ → ℕ → ℚ) (r c q : ℕ) (hr : 1 ≤ r) (hc : r < c)
    (hq1 : r - 1 ≤ q) (hq2 : q < c) :
    (FQmat Cv r c).1 ≤ (FQmat Cv (r - 1) q).1 + Cv (q + 1) c := by
  obtain ⟨qs, _, _, _, _, hmin, _⟩ := FQ_cell Cv r c hr hc
  exact hmin q hq1 hq2

lemma costDev_le_succ (sv : ℕ → ℚ) (i j : ℕ) (h : i ≤ j) :
    costDev sv i j ≤ costDev sv i (j + 1) := by
  rcases Nat.eq_or_lt_of_le h with he | hlt
  · subst he
    rw [costDev, if_neg (lt_irrefl i), costDev, if_pos (by omega)]
    have e1 : wPre sv (i + 1 + 1) = wPre sv i + sv i + sv (i + 1) := by
      show wPre sv (i + 1) + sv (i + 1) = wPre sv i + sv i + sv (i + 1)
      rw [show wPre sv (i + 1) = wPre sv i + sv i from rfl]
    have e2 : w2Pre sv (i + 1 + 1) =
        w2Pre sv i + sv i * sv i + sv (i + 1) * sv (i + 1) := by
      show w2Pre sv (i + 1) + sv (i + 1) * sv (i + 1) =
        w2Pre sv i + sv i * sv i + sv (i + 1) * sv (i + 1)
      rw [show w2Pre sv (i + 1) = w2Pre sv i + sv i * sv i from rfl]
    rw [e1, e2]
    have e3 : (i + 1 - i + 1 : ℕ) = 2 := by omega
    rw [e3]
    have hA := sq_nonneg (sv i - sv (i + 1))
    nlinarith [hA]
  · rw [costDev, if_pos hlt, costDev, if_pos (by omega)]
    set T := w2Pre sv (j + 1) - w2Pre sv i with hT
    set S := wPre sv (j + 1) - wPre sv i with hS
    set x := sv (j + 1) with hx
    have e1 : wPre sv (j + 1 + 1) = wPre sv (j + 1) + x := rfl
    have e2 : w2Pre sv (j + 1 + 1) = w2Pre sv (j + 1) + x * x := rfl
    have e3 : (j + 1 - i + 1 : ℕ) = (j - i + 1) + 1 := by omega
    rw [e1, e2, e3]
    set n := ((j - i + 1 : ℕ) : ℚ) with hn
    have hnpos : (0 : ℚ) < n := by
      rw [hn]
      exact_mod_cast Nat.succ_pos (j - i)
    have hcast : (((j - i + 1) + 1 : ℕ) : ℚ) = n + 1 := by
      rw [hn]
      push_cast
      ring
    rw [hcast]
    have hn1pos : (0 : ℚ) < n + 1 := by linarith
    have key : (w2Pre sv (j + 1) + x * x - w2Pre sv i) -
        (wPre sv (j + 1) + x - wPre sv i) * (wPre sv (j + 1) + x - wPre sv i) / (n + 1) -
        (T - S * S / n) = (n * x - S) ^ 2 / (n * (n + 1)) := by
      rw [hT, hS]
      field_simp
      ring
    have hpos : (0 : ℚ) ≤ (n * x - S) ^ 2 / (n * (n + 1)) := by positivity
    linarith [key, hpos]

/-- Joint induction: for a cost kernel with zero diagonal that is
monotone in the right endpoint, each row of `F` is monotone in the
column, and going down one row never increases `F`. -/
lemma F_mono_pair (Cv : ℕ → ℕ → ℚ) (hd : ∀ i, Cv i i = 0)
    (hm : ∀ i j, i ≤ j → Cv i j ≤ Cv i (j + 1)) :
    ∀ r, (∀ j, r + 1 ≤ j → (FQmat Cv r j).1 ≤ (FQmat Cv r (j + 1)).1) ∧
         (∀ j, r + 2 ≤ j → (FQmat Cv (r + 1) j).1 ≤ (FQmat Cv r j).1) := by
  intro r
  induction r with
  | zero =>
      have hA : ∀ j, 0 + 1 ≤ j → (FQmat Cv 0 j).1 ≤ (FQmat Cv 0 (j + 1)).1 := by
        intro j hj
        show Cv 0 j ≤ Cv 0 (j + 1)
        exact hm 0 j (by omega)
      refine ⟨hA, ?_⟩
      intro j hj
      have h1 : (FQmat Cv 1 j).1 ≤ (FQmat Cv 0 (j - 1)).1 + Cv (j - 1 + 1) j :=
        FQ_min Cv 1 j (j - 1) (by omega) (by omega) (by omega) (by omega)
      have e : j - 1 + 1 = j := by omega
      rw [e, hd j] at h1
      have h2 : (FQmat Cv 0 (j - 1)).1 ≤ (FQmat Cv 0 (j - 1 + 1)).1 := hA (j - 1) (by omega)
      rw [e] at h2
      linarith
  | succ rr ih =>
      have hA : ∀ j, rr + 1 + 1 ≤ j → (FQmat Cv (rr + 1) j).1 ≤ (FQmat Cv (rr + 1) (j + 1)).1 := by
        intro j hj
        obtain ⟨qs, hq1, hq2, hFv, _, _, _⟩ := FQ_cell Cv (rr + 1) (j + 1) (by omega) (by omega)
        simp only [Nat.add_sub_cancel] at hq1 hFv
        rcases Nat.lt_or_ge qs j with h | h
        · have hmin2 : (FQmat Cv (rr + 1) j).1 ≤ (FQmat Cv (rr + 1 - 1) qs).1 + Cv (qs + 1) j :=
            FQ_min Cv (rr + 1) j qs (by omega) (by omega) (by omega) (by omega)
          simp only [Nat.add_sub_cancel] at hmin2
          have hcv : Cv (qs + 1) j ≤ Cv (qs + 1) (j + 1) := hm (qs + 1) j (by omega)
          rw [hFv]
          linarith
        · have hqj : qs = j := by omega
          subst hqj
          rw [hFv, hd (qs + 1)]
          have h3 : (FQmat Cv (rr + 1) qs).1 ≤ (FQmat Cv rr qs).1 := ih.2 qs (by omega)
          linarith
      refine ⟨hA, ?_⟩
      intro j hj
      have h1 : (FQmat Cv (rr + 1 + 1) j).1 ≤
          (FQmat Cv (rr + 1 + 1 - 1) (j - 1)).1 + Cv (j - 1 + 1) j :=
        FQ_min Cv (rr + 1 + 1) j (j - 1) (by omega) (by omega) (by omega) (by omega)
      simp only [Nat.add_sub_cancel] at h1
      have e : j - 1 + 1 = j := by omega
      rw [e, hd j] at h1
      have h2 : (FQmat Cv (rr + 1) (j - 1)).1 ≤ (FQmat Cv (rr + 1) (j - 1 + 1)).1 :=
        hA (j - 1) (by omega)
      rw [e] at h2
      linarith

lemma F_chain (Cv : ℕ → ℕ → ℚ) (hd : ∀ i, Cv i i = 0)
    (hm : ∀ i j, i ≤ j → Cv i j ≤ Cv i (j + 1)) :
    ∀ d r j, r + d + 1 ≤ j → (FQmat Cv (r + d) j).1 ≤ (FQmat Cv r j).1 := by
  intro d
  induction d with
  | zero => intro r j _; exact le_refl _
  | succ dd ih =>
      intro r j hj
      have h1 : (FQmat Cv (r + dd + 1) j).1 ≤ (FQmat Cv (r + dd) j).1 :=
        (F_mono_pair Cv hd hm (r + dd)).2 j (by omega)
      have h2 : (FQmat Cv (r + dd) j).1 ≤ (FQmat Cv r j).1 := ih r j (by omega)
      have e : r + (dd + 1) = r + dd + 1 := rfl
      rw [e]
      linarith

/-! ### The claims -/

/-- Claim C1: for the input values `[5, 1, 3, 2, 4]` with `nt = 2` under the
deviation kernel (`matrix = 1`), `igraph_i_optimal_partition` returns
total cost exactly `5/2` and, with base label `FIRST_GROUP_NB = 0`, sets
`gr[1] = gr[3] = 0` and `gr[0] = gr[2] = gr[4] = 1`. -/
theorem claim_C1 :
    (igraph_i_optimal_partition [5, 1, 3, 2, 4] (fun _ => 99) 2 1 (fun _ => 0)).1
      = Except.ok (5 / 2) ∧
    (igraph_i_optimal_partition [5, 1, 3, 2, 4] (fun _ => 99) 2 1 (fun _ => 0)).2 1 = 0 ∧
    (igraph_i_optimal_partition [5, 1, 3, 2, 4] (fun _ => 99) 2 1 (fun _ => 0)).2 3 = 0 ∧
    (igraph_i_optimal_partition [5, 1, 3, 2, 4] (fun _ => 99) 2 1 (fun _ => 0)).2 0 = 1 ∧
    (igraph_i_optimal_partition [5, 1, 3, 2, 4] (fun _ => 99) 2 1 (fun _ => 0)).2 2 = 1 ∧
    (igraph_i_optimal_partition [5, 1, 3, 2, 4] (fun _ => 99) 2 1 (fun _ => 0)).2 4 = 1 := by
  norm_num [igraph_i_optimal_partition, vsList, withIdx, sortIV, insertIV, nonTies,
    countChanges, FQmat, dpScan, igraph_i_cost_matrix, costDev, wPre, w2Pre, sval, sind,
    btLoop, labelRun, labelUp, updFn, FIRST_GROUP_NB]

/-- Claim C2: `igraph_i_optimal_partition` fails with the invalid-argument
error exactly when `nt` is not strictly below the number of distinct
values (`non_ties`) of the sorted input, and on that path the
label array of the caller comes back untouched; for every `1 ≤ nt < non_ties` the call
returns `Except.ok`. -/
theorem claim_C2 (v : List ℚ) (gr : ℕ → ℕ) (nt matrix : ℕ) (p : ℕ → ℚ) :
    (nonTies (List.map IndVal.val (vsList v)) ≤ nt →
      igraph_i_optimal_partition v gr nt matrix p =
        (Except.error "nt must be smaller than the number of unique values in v", gr)) ∧
    (1 ≤ nt → nt < nonTies (List.map IndVal.val (vsList v)) →
      ∃ c, (igraph_i_optimal_partition v gr nt matrix p).1 = Except.ok c) := by
  constructor
  · intro h
    rw [igraph_i_optimal_partition]
    simp only [if_pos h]
  · intro h1 h2
    rw [igraph_i_optimal_partition]
    simp only [if_neg (by omega : ¬ nonTies (List.map IndVal.val (vsList v)) ≤ nt)]
    exact ⟨_, rfl⟩

theorem claim_C2_witness :
    igraph_i_optimal_partition [1, 2] (fun _ => 7) 5 1 (fun _ => 0) =
      (Except.error "nt must be smaller than the number of unique values in v", fun _ => 7) ∧
    ∃ c, (igraph_i_optimal_partition [1, 2, 3] (fun _ => 7) 2 1 (fun _ => 0)).1 =
      Except.ok c := by
  constructor
  · exact (claim_C2 [1, 2] (fun _ => 7) 5 1 (fun _ => 0)).1
      (by norm_num [nonTies, countChanges, vsList, withIdx, sortIV, insertIV])
  · exact (claim_C2 [1, 2, 3] (fun _ => 7) 2 1 (fun _ => 0)).2 (by norm_num)
      (by norm_num [nonTies, countChanges, vsList, withIdx, sortIV, insertIV])

/-- Claim C4 is a code bug: under the stochastic kernel the claim (and the
spec) require the cost of the interval `[i, j]` to cover both endpoints,
but the loops `for(k=i; k<j; k++)` exclude position `j`.  At sorted
values `[0, 10]` with uniform weights `1/2`, the cell `(0, 1)` gets cost
`0` (only element 0 is scanned), while the spec formula over `[0, 1]`
gives `50`. -/
theorem claim_C4_code_bug :
    costStoch (sval [0, 10]) (fun _ => 1 / 2) 0 1 = 0 ∧
    specStochCost (sval [0, 10]) (fun _ => 1 / 2) 0 1 = 50 := by
  norm_num [costStoch, specStochCost, winSum, sval, vsList, withIdx, sortIV, insertIV]

/-- Claim C5 counterexample: for values `[0, 10, 20, 30, 31]` with `nt = 4`
under the deviation kernel, the walk starts at row 3, column 4 where
`Q[3][4] = 2` and `3 > 1`; the claim says this state is treated as a
normal split at `q = 0` and the walk continues, but the code takes the
`break` branch (the walk result records the break at row 3, and rows
2, 1, 0 are never visited). -/
theorem claim_C5_counterexample :
    (FQmat (igraph_i_cost_matrix 1 (sval [0, 10, 20, 30, 31]) (fun _ => 0)) 3 4).2 = 2 ∧
    (btLoop
      (fun r c => (FQmat (igraph_i_cost_matrix 1 (sval [0, 10, 20, 30, 31]) (fun _ => 0)) r c).2)
      (sind [0, 10, 20, 30, 31]) FIRST_GROUP_NB 3 4 4 (fun _ => 0)).2 = some 3 := by
  norm_num [FQmat, dpScan, igraph_i_cost_matrix, costDev, wPre, w2Pre, sval, sind,
    vsList, withIdx, sortIV, insertIV, btLoop, labelRun, labelUp, updFn, FIRST_GROUP_NB]

/-- Claim C5 amended: in the backtracking walk, whenever `Q[row][col] = 2` and
`row > 1`, positions `[1..col]` are labelled with the current group
index, the prefix `[0..row-1]` is then relabelled as `row` singleton
groups and the walk terminates (the break fires); whenever `Q[row][col]
= 2` and `row ≤ 1`, the state is treated as a normal split at `q = 0`
(the column moves to 0 at row 1) and the walk continues to completion
without the singleton unpacking. -/
theorem claim_C5_amended (Q : ℕ → ℕ → ℕ) (ind : ℕ → ℕ) (base j col pi : ℕ) (g : ℕ → ℕ)
    (h2 : Q j col = 2) :
    (1 < j → btLoop Q ind base j col pi g =
      (labelUp ind base 0 j (labelRun ind (pi - 1 + base) 1 col g), some j)) ∧
    (j = 1 → btLoop Q ind base j col pi g =
      btLoop Q ind base 0 0 (pi - 1) (labelRun ind (pi - 1 + base) 1 col g)) ∧
    (j = 0 → btLoop Q ind base j col pi g =
      (labelRun ind (pi - 1 + base) 1 col g, none)) := by
  refine ⟨?_, ?_, ?_⟩
  · intro hj
    obtain ⟨jj, rfl⟩ : ∃ jj, j = jj + 1 := ⟨j - 1, by omega⟩
    rw [btLoop_succ, if_pos ⟨h2, hj⟩, h2]
    have e1 : (2 : ℕ) - 1 = 1 := rfl
    have e2 : col + 2 - 2 = col := by omega
    rw [e1, e2]
  · intro hj
    subst hj
    rw [btLoop_succ, if_neg (by omega), h2]
    have e1 : (2 : ℕ) - 1 = 1 := rfl
    have e2 : col + 2 - 2 = col := by omega
    have e3 : (2 : ℕ) - 2 = 0 := rfl
    rw [e1, e2, e3]
  · intro hj
    subst hj
    rw [btLoop_zero, h2]
    have e1 : (2 : ℕ) - 1 = 1 := rfl
    have e2 : col + 2 - 2 = col := by omega
    rw [e1, e2]

theorem claim_C5_amended_witness :
    btLoop (fun _ _ => 2) (fun x => x) 0 3 5 6 (fun _ => 9) =
      (labelUp (fun x => x) 0 0 3 (labelRun (fun x => x) (6 - 1 + 0) 1 5 (fun _ => 9)),
        some 3) :=
  (claim_C5_amended (fun _ _ => 2) (fun x => x) 0 3 5 6 (fun _ => 9) rfl).1 (by omega)

/-- Claim C7: under each kernel selector (1, 2 or 3) the diagonal of the cost
matrix is exactly zero — the building loops only run for `j > i`, so
single-element intervals keep the zeroed-allocation value 0. -/
theorem claim_C7 (matrix : ℕ) (sv ps : ℕ → ℚ) (i : ℕ)
    (h : matrix = 1 ∨ matrix = 2 ∨ matrix = 3) :
    igraph_i_cost_matrix matrix sv ps i i = 0 :=
  cost_matrix_diag matrix sv ps i

theorem claim_C7_witness :
    igraph_i_cost_matrix 3 (fun k => (k : ℚ)) (fun _ => 1 / 5) 4 4 = 0 :=
  claim_C7 3 (fun k => (k : ℚ)) (fun _ => 1 / 5) 4 (Or.inr (Or.inr rfl))

/-- Claim C10: the stochastic kernel divides `t2` by the window sum `t1 =
winSum ps i (j - i)` with no zero guard; when every weight is strictly
positive the divisor of every populated cell is nonzero, and with the
all-zero weight vector the divisor of a populated cell is 0 (a division
by zero in the C code). -/
theorem claim_C10 :
    (∀ (ps : ℕ → ℚ) (i j : ℕ), (∀ k, 0 < ps k) → i < j → winSum ps i (j - i) ≠ 0) ∧
    winSum (fun _ => (0 : ℚ)) 0 (2 - 0) = 0 := by
  constructor
  · intro ps i j hpos hij
    have hgen : ∀ cnt, 0 < cnt → 0 < winSum ps i cnt := by
      intro cnt
      induction cnt with
      | zero => intro h; omega
      | succ c ihc =>
          intro _
          rcases Nat.eq_zero_or_pos c with hc | hc
          · subst hc
            have : winSum ps i 1 = 0 + ps (i + 0) := rfl
            rw [this]
            have := hpos (i + 0)
            linarith
          · have h1 := ihc hc
            have h2 := hpos (i + c)
            have : winSum ps i (c + 1) = winSum ps i c + ps (i + c) := rfl
            rw [this]
            linarith
    have := hgen (j - i) (by omega)
    linarith
  · norm_num [winSum]

theorem claim_C10_witness :
    winSum (fun _ => (1 : ℚ)) 0 (3 - 0) ≠ 0 :=
  claim_C10.1 (fun _ => 1) 0 3 (fun k => by norm_num) (by omega)

/-- Claim C3: for every valid input (`1 ≤ nt` strictly below the number of
distinct values), the produced labelling of sorted positions (read back
through `vs[i].ind`) is monotone in the sorted position, attains every
label of `[FIRST_GROUP_NB, FIRST_GROUP_NB + nt)`, and stays inside that
range — i.e. it cuts the sorted sequence into exactly `nt` non-empty
contiguous blocks whose labels strictly increase with sorted position. -/
theorem claim_C3 (v : List ℚ) (gr : ℕ → ℕ) (nt matrix : ℕ) (p : ℕ → ℚ)
    (h1 : 1 ≤ nt) (h2 : nt < nonTies (List.map IndVal.val (vsList v))) :
    (∀ i1 i2, i1 ≤ i2 → i2 < v.length →
      (igraph_i_optimal_partition v gr nt matrix p).2 (sind v i1) ≤
        (igraph_i_optimal_partition v gr nt matrix p).2 (sind v i2)) ∧
    (∀ m, m < nt → ∃ i, i < v.length ∧
      (igraph_i_optimal_partition v gr nt matrix p).2 (sind v i) = m + FIRST_GROUP_NB) ∧
    (∀ i, i < v.length →
      FIRST_GROUP_NB ≤ (igraph_i_optimal_partition v gr nt matrix p).2 (sind v i) ∧
      (igraph_i_optimal_partition v gr nt matrix p).2 (sind v i) < nt + FIRST_GROUP_NB) := by
  obtain ⟨b, hb0, hbtop, hbstep, hblab, _⟩ := driver_blocks v gr nt matrix p h1 h2
  have ent : nt - 1 + 1 = nt := by omega
  have hstep2 : ∀ m, m ≤ nt - 1 → b m < b (m + 1) := fun m hm => hbstep m (by omega)
  have htop2 : b (nt - 1 + 1) = v.length := by rw [ent]; exact hbtop
  have hfind : ∀ i, i < v.length → ∃ m, m ≤ nt - 1 ∧ b m ≤ i ∧ i < b (m + 1) :=
    blockFind (nt - 1) b v.length hb0 htop2 hstep2
  have hmono := bMono b (nt - 1) hstep2
  refine ⟨?_, ?_, ?_⟩
  · intro i1 i2 hle h2len
    obtain ⟨m1, hm1a, hm1b, hm1c⟩ := hfind i1 (by omega)
    obtain ⟨m2, hm2a, hm2b, hm2c⟩ := hfind i2 h2len
    rw [hblab m1 i1 (by omega) hm1b hm1c, hblab m2 i2 (by omega) hm2b hm2c]
    rcases Nat.lt_or_ge m2 m1 with h | h
    · exfalso
      have hm : b (m2 + 1) ≤ b (m2 + 1 + (m1 - m2 - 1)) :=
        hmono (m1 - m2 - 1) (m2 + 1) (by omega)
      have e : m2 + 1 + (m1 - m2 - 1) = m1 := by omega
      rw [e] at hm
      omega
    · omega
  · intro m hm
    refine ⟨b m, ?_, ?_⟩
    · have h3 : b (m + 1) ≤ b (m + 1 + (nt - m - 1)) := hmono (nt - m - 1) (m + 1) (by omega)
      have e : m + 1 + (nt - m - 1) = nt := by omega
      rw [e, hbtop] at h3
      have := hbstep m hm
      omega
    · exact hblab m (b m) hm (le_refl _) (hbstep m hm)
  · intro i hi
    obtain ⟨m, hma, hmb, hmc⟩ := hfind i hi
    rw [hblab m i (by omega) hmb hmc]
    omega

theorem claim_C3_witness :
    FIRST_GROUP_NB ≤
      (igraph_i_optimal_partition [1, 2, 3] (fun _ => 9) 2 1 (fun _ => 0)).2
        (sind [1, 2, 3] 0) ∧
    (igraph_i_optimal_partition [1, 2, 3] (fun _ => 9) 2 1 (fun _ => 0)).2
        (sind [1, 2, 3] 0) < 2 + FIRST_GROUP_NB :=
  (claim_C3 [1, 2, 3] (fun _ => 9) 2 1 (fun _ => 0) (by norm_num)
    (by norm_num [nonTies, countChanges, vsList, withIdx, sortIV, insertIV])).2.2 0
    (by norm_num)

/-- Claim C6: in every computed cell `(g, j)` (row `g ≥ 1`, column `j ≥ g+1`)
the recorded split point is the earliest minimiser of the candidate
value `F[g-1][q] + Cv[q+1][j]` over `q ∈ [g-1, j-1]`: the cell value is
that minimum, it is strictly below every earlier candidate (so later
ties never overwrite it), and `Q[g][j]` stores the sentinel 2 when the
earliest minimiser is `q = g-1` and `q + 2` otherwise. -/
theorem claim_C6 (Cv : ℕ → ℕ → ℚ) (g j : ℕ) (hg : 1 ≤ g) (hj : g < j) :
    ∃ qs, g - 1 ≤ qs ∧ qs < j ∧
      (FQmat Cv g j).1 = (FQmat Cv (g - 1) qs).1 + Cv (qs + 1) j ∧
      (∀ q, g - 1 ≤ q → q < j →
        (FQmat Cv g j).1 ≤ (FQmat Cv (g - 1) q).1 + Cv (q + 1) j) ∧
      (∀ q, g - 1 ≤ q → q < qs →
        (FQmat Cv g j).1 < (FQmat Cv (g - 1) q).1 + Cv (q + 1) j) ∧
      (FQmat Cv g j).2 = (if qs = g - 1 then 2 else qs + 2) := by
  obtain ⟨qs, h1, h2, h3, h4, h5, h6⟩ := FQ_cell Cv g j hg hj
  exact ⟨qs, h1, h2, h3, h5, h6, h4⟩

theorem claim_C6_witness :
    ∃ qs, 1 - 1 ≤ qs ∧ qs < 2 ∧
      (FQmat (fun i j => ((i + j : ℕ) : ℚ)) 1 2).1 =
        (FQmat (fun i j => ((i + j : ℕ) : ℚ)) (1 - 1) qs).1 +
          ((qs + 1 + 2 : ℕ) : ℚ) ∧
      (∀ q, 1 - 1 ≤ q → q < 2 →
        (FQmat (fun i j => ((i + j : ℕ) : ℚ)) 1 2).1 ≤
          (FQmat (fun i j => ((i + j : ℕ) : ℚ)) (1 - 1) q).1 + ((q + 1 + 2 : ℕ) : ℚ)) ∧
      (∀ q, 1 - 1 ≤ q → q < qs →
        (FQmat (fun i j => ((i + j : ℕ) : ℚ)) 1 2).1 <
          (FQmat (fun i j => ((i + j : ℕ) : ℚ)) (1 - 1) q).1 + ((q + 1 + 2 : ℕ) : ℚ)) ∧
      (FQmat (fun i j => ((i + j : ℕ) : ℚ)) 1 2).2 = (if qs = 1 - 1 then 2 else qs + 2) :=
  claim_C6 (fun i j => ((i + j : ℕ) : ℚ)) 1 2 (by omega) (by omega)

/-- Claim C8: on every valid input the scalar returned by
`igraph_i_optimal_partition` is `Except.ok` of the sum, over the `nt`
blocks `[b m, b (m+1) - 1]` of sorted positions that the output labels
determine, of the selected cost-kernel entry of each block. -/
theorem claim_C8 (v : List ℚ) (gr : ℕ → ℕ) (nt matrix : ℕ) (p : ℕ → ℚ)
    (h1 : 1 ≤ nt) (h2 : nt < nonTies (List.map IndVal.val (vsList v))) :
    ∃ b : ℕ → ℕ, b 0 = 0 ∧ b nt = v.length ∧
      (∀ m, m < nt → b m < b (m + 1)) ∧
      (∀ m i, m < nt → b m ≤ i → i < b (m + 1) →
        (igraph_i_optimal_partition v gr nt matrix p).2 (sind v i) = m + FIRST_GROUP_NB) ∧
      (igraph_i_optimal_partition v gr nt matrix p).1 =
        Except.ok (∑ m ∈ Finset.range nt,
          igraph_i_cost_matrix matrix (sval v) (fun i => p (sind v i))
            (b m) (b (m + 1) - 1)) :=
  driver_blocks v gr nt matrix p h1 h2

theorem claim_C8_witness :
    ∃ b : ℕ → ℕ, b 0 = 0 ∧ b 2 = ([1, 2, 3] : List ℚ).length ∧
      (∀ m, m < 2 → b m < b (m + 1)) ∧
      (∀ m i, m < 2 → b m ≤ i → i < b (m + 1) →
        (igraph_i_optimal_partition [1, 2, 3] (fun _ => 9) 2 1 (fun _ => 0)).2
          (sind [1, 2, 3] i) = m + FIRST_GROUP_NB) ∧
      (igraph_i_optimal_partition [1, 2, 3] (fun _ => 9) 2 1 (fun _ => 0)).1 =
        Except.ok (∑ m ∈ Finset.range 2,
          igraph_i_cost_matrix 1 (sval [1, 2, 3]) (fun i => (fun _ => (0 : ℚ)) (sind [1, 2, 3] i))
            (b m) (b (m + 1) - 1)) :=
  claim_C8 [1, 2, 3] (fun _ => 9) 2 1 (fun _ => 0) (by norm_num)
    (by norm_num [nonTies, countChanges, vsList, withIdx, sortIV, insertIV])

/-- Claim C9 counterexample: under the stochastic kernel (`matrix = 3`) with
the probability weight vector
`[13/31, 1/31, 1/31, 1/31, 1/31, 13/31, 1/31]` and values
`[-6, 0, 0, 0, 0, 6, 6]` (three distinct values, so both `nt = 1` and
`nt = 2` are valid), the returned optimal cost for `nt = 2` is
`1161/16`, strictly larger than the cost `72` returned for `nt = 1`:
increasing the group count increases the optimal cost, refuting the
claim as stated over all kernels. -/
theorem claim_C9_counterexample :
    (igraph_i_optimal_partition [-6, 0, 0, 0, 0, 6, 6] (fun _ => 0) 1 3
      (fun i => List.getD [13/31, 1/31, 1/31, 1/31, 1/31, 13/31, 1/31] i 0)).1
      = Except.ok 72 ∧
    (igraph_i_optimal_partition [-6, 0, 0, 0, 0, 6, 6] (fun _ => 0) 2 3
      (fun i => List.getD [13/31, 1/31, 1/31, 1/31, 1/31, 13/31, 1/31] i 0)).1
      = Except.ok (1161 / 16) ∧
    (72 : ℚ) < 1161 / 16 := by
  norm_num [igraph_i_optimal_partition, vsList, withIdx, sortIV, insertIV, nonTies,
    countChanges, FQmat, dpScan, igraph_i_cost_matrix, costStoch, winSum, sval, sind]

/-- Claim C9 amended: under the deviation kernels (`matrix = 1` or `2`), for a
fixed value vector and valid group counts `nt < nt2 < non_ties`, the
optimal cost returned for `nt2` groups is at most the one returned for
`nt` groups. -/
theorem claim_C9_amended (v : List ℚ) (gr1 gr2 : ℕ → ℕ) (nt nt2 matrix : ℕ) (p : ℕ → ℚ)
    (hmx : matrix = 1 ∨ matrix = 2) (h1 : 1 ≤ nt) (hlt : nt < nt2)
    (h2 : nt2 < nonTies (List.map IndVal.val (vsList v))) :
    ∀ c c2 : ℚ, (igraph_i_optimal_partition v gr1 nt matrix p).1 = Except.ok c →
      (igraph_i_optimal_partition v gr2 nt2 matrix p).1 = Except.ok c2 →
      c2 ≤ c := by
  intro c c2 hc hc2
  have hv : v ≠ [] := by
    intro he
    subst he
    have : nonTies (List.map IndVal.val (vsList [])) = 1 := rfl
    omega
  have hle : nonTies (List.map IndVal.val (vsList v)) ≤ v.length := nonTies_le v hv
  have hn : nt2 < v.length := by omega
  set Cv := igraph_i_cost_matrix matrix (sval v) (fun i => p (sind v i)) with hCv
  have hcond1 : ¬ (nonTies (List.map IndVal.val (vsList v)) ≤ nt) := by omega
  have hcond2 : ¬ (nonTies (List.map IndVal.val (vsList v)) ≤ nt2) := by omega
  have hd1 : (igraph_i_optimal_partition v gr1 nt matrix p).1 =
      Except.ok (FQmat Cv (nt - 1) (v.length - 1)).1 := by
    rw [igraph_i_optimal_partition]
    simp only [if_neg hcond1]
  have hd2 : (igraph_i_optimal_partition v gr2 nt2 matrix p).1 =
      Except.ok (FQmat Cv (nt2 - 1) (v.length - 1)).1 := by
    rw [igraph_i_optimal_partition]
    simp only [if_neg hcond2]
  rw [hd1] at hc
  rw [hd2] at hc2
  have hceq : c = (FQmat Cv (nt - 1) (v.length - 1)).1 := (Except.ok.inj hc).symm
  have hceq2 : c2 = (FQmat Cv (nt2 - 1) (v.length - 1)).1 := (Except.ok.inj hc2).symm
  have hdiag : ∀ i, Cv i i = 0 := fun i => cost_matrix_diag matrix _ _ i
  have hmon : ∀ i j, i ≤ j → Cv i j ≤ Cv i (j + 1) := by
    intro i j hij
    rw [hCv]
    show igraph_i_cost_matrix matrix (sval v) (fun i => p (sind v i)) i j ≤
      igraph_i_cost_matrix matrix (sval v) (fun i => p (sind v i)) i (j + 1)
    rw [igraph_i_cost_matrix, igraph_i_cost_matrix, if_pos hmx, if_pos hmx]
    exact costDev_le_succ (sval v) i j hij
  have hchain : (FQmat Cv (nt - 1 + (nt2 - nt)) (v.length - 1)).1 ≤
      (FQmat Cv (nt - 1) (v.length - 1)).1 :=
    F_chain Cv hdiag hmon (nt2 - nt) (nt - 1) (v.length - 1) (by omega)
  have e : nt - 1 + (nt2 - nt) = nt2 - 1 := by omega
  rw [e] at hchain
  rw [hceq, hceq2]
  exact hchain

theorem claim_C9_amended_witness : (1 : ℚ) ≤ 5 :=
  claim_C9_amended [1, 2, 3, 4] (fun _ => 0) (fun _ => 0) 1 2 1 (fun _ => 0)
    (Or.inl rfl) (by norm_num) (by norm_num)
    (by norm_num [nonTies, countChanges, vsList, withIdx, sortIV, insertIV]) 5 1
    (by norm_num [igraph_i_optimal_partition, vsList, withIdx, sortIV, insertIV, nonTies,
      countChanges, FQmat, dpScan, igraph_i_cost_matrix, costDev, wPre, w2Pre, sval, sind])
    (by norm_num [igraph_i_optimal_partition, vsList, withIdx, sortIV, insertIV, nonTies,
      countChanges, FQmat, dpScan, igraph_i_cost_matrix, costDev, wPre, w2Pre, sval, sind])
